import Mathlib

/-!
Verification of the per-partition processing core of the
`aws/go-kafka-event-source` library (package `streams`), against its
natural-language specification.

The development shallowly embeds two source files:

* the async batcher (`Batch`, `BatchItem`, `AsyncBatcher` with its slots,
  `assignments` map, pending queue and flush logic), and
* the partition worker (`scheduleTxnAndExecution`, `handleEvent`,
  `forwardToEventSource`, and the async-completer branch of `work`).

Go maps are embedded as association lists, Go slices as `List`, pointers to
batch slots as indices into the slot list, and `time.Duration` as `Int`
nanoseconds.  Concurrency is embedded as an event-interleaving model: each
mutex-protected critical section of the Go code becomes one atomic step
(`BEvent`), and the goroutine spawned by `conditionallyExecuteBatch` is
represented by the later `complete` event that performs the tail of
`executeBatch`.  A ghost field `execLog` records each invocation of the
user executor (the argument slice it was called with); it is written exactly
where the Go code calls `ab.executor(batch.items)` and read by no operation.
-/

namespace GKES

/-- Association-list embedding of the Go map `map[K]*asyncBatch`; values are
slot indices standing for the `*asyncBatch` pointers. Lookup returns the most
recent binding. -/
def lookupA {K : Type} [DecidableEq K] : List (K × Nat) → K → Option Nat
  | [], _ => none
  | (k', v) :: rest, k => if k = k' then some v else lookupA rest k

/-- Embedding of Go `delete(assignments, k)`: remove every binding of `k`. -/
def eraseA {K : Type} [DecidableEq K] : List (K × Nat) → K → List (K × Nat)
  | [], _ => []
  | (k', v) :: rest, k => if k' = k then eraseA rest k else (k', v) :: eraseA rest k

/-- Embedding of Go `assignments[k] = batch`: bind `k`, dropping old bindings. -/
def insertA {K : Type} [DecidableEq K] (m : List (K × Nat)) (k : K) (v : Nat) :
    List (K × Nat) :=
  (k, v) :: eraseA m k

/-- `BatchItem[K,V]` minus the untyped parent pointer (tracked separately). -/
structure BItem (K V : Type) where
  key : K
  value : V
  deriving DecidableEq, Repr

/-- The `asyncBatchState` enum: `batcherReady` / `batcherExecuting`. -/
inductive SState where
  | Ready
  | Executing
  deriving DecidableEq, Repr

/-- One `asyncBatch[K,V]` slot: its items, state, and whether `flushTimer`
is non-nil (the timer firing is modelled as a separate event). -/
structure ASlot (K V : Type) where
  items : List (BItem K V)
  state : SState
  flushTimer : Bool
  deriving DecidableEq, Repr

/-- The mutex-protected state of `AsyncBatcher[S,K,V]`, plus the ghost
`execLog` of executor invocations. -/
structure AB (K V : Type) where
  batches : List (ASlot K V)
  assignments : List (K × Nat)
  pending : List (BItem K V)
  executingCount : Nat
  maxBatchSize : Nat
  execLog : List (List (BItem K V))
  deriving DecidableEq, Repr

variable {K V : Type} [DecidableEq K] [DecidableEq V]

/-- Dereference a slot index; out-of-range indices (never produced by the
operations below) dereference to an inert `Executing` slot. -/
def slotAt (ab : AB K V) (i : Nat) : ASlot K V :=
  (ab.batches[i]?).getD ⟨[], SState.Executing, false⟩

/-- The keys of a slot's items. -/
def slotKeys (s : ASlot K V) : List K :=
  s.items.map (fun it => it.key)

/-- The keys held by slot `i` of the batcher (empty when out of range). -/
def keysAt (ab : AB K V) (i : Nat) : List K :=
  slotKeys (slotAt ab i)

/-- The `for _, batch := range ab.batches` scan inside `batchFor`: the index
of the first slot in state `batcherReady`. -/
def firstReadyIdx : List (ASlot K V) → Option Nat
  | [] => none
  | s :: rest =>
    if s.state = SState.Ready then some 0 else (firstReadyIdx rest).map (fun n => n + 1)

/-- `AsyncBatcher.batchFor`: slot selection for an item's key. -/
def batchForM (ab : AB K V) (k : K) : Option Nat :=
  match lookupA ab.assignments k with
  | some i => if (slotAt ab i).state = SState.Ready then some i else none
  | none => firstReadyIdx ab.batches

/-- `AsyncBatcher.conditionallyExecuteBatch`: if the slot is `Ready`, mark it
`Executing`, bump `executingCount`, and stop/clear its flush timer.  The
spawned `executeBatch` goroutine is modelled by a later `complete` event. -/
def condExec (ab : AB K V) (i : Nat) : AB K V :=
  let s := slotAt ab i
  if s.state = SState.Ready then
    { ab with
      batches := ab.batches.set i { s with state := SState.Executing, flushTimer := false },
      executingCount := ab.executingCount + 1 }
  else ab

/-- `AsyncBatcher.addToBatch`: record the assignment, append the item, then
dispatch on max size, else arm the flush timer if not armed. -/
def addToBatch (ab : AB K V) (item : BItem K V) (i : Nat) : AB K V :=
  let s := slotAt ab i
  let s1 : ASlot K V := { s with items := s.items ++ [item] }
  let ab1 : AB K V :=
    { ab with
      assignments := insertA ab.assignments item.key i,
      batches := ab.batches.set i s1 }
  if s1.items.length = ab.maxBatchSize then
    condExec ab1 i
  else if s1.flushTimer = false then
    { ab1 with batches := ab1.batches.set i { s1 with flushTimer := true } }
  else ab1

/-- `AsyncBatcher.add` (the per-item admission under the mutex): target the
slot chosen by `batchFor`, or push onto `pendingItems`. -/
def addItem (ab : AB K V) (item : BItem K V) : AB K V :=
  match batchForM ab item.key with
  | some i => addToBatch ab item i
  | none => { ab with pending := ab.pending ++ [item] }

/-- `AsyncBatcher.Add`: submit every item of a `Batch` in order. -/
def addBatch (ab : AB K V) (items : List (BItem K V)) : AB K V :=
  items.foldl addItem ab

/-- `asyncBatch.reset`: delete this slot's item keys from `assignments`,
clear the items, and return the slot to `Ready`. -/
def resetSlot (ab : AB K V) (i : Nat) : AB K V :=
  let s := slotAt ab i
  { ab with
    assignments := s.items.foldl (fun m it => eraseA m it.key) ab.assignments,
    batches := ab.batches.set i { s with items := [], state := SState.Ready } }

/-- The loop body of `AsyncBatcher.flushPendingItems` over the pending list
`rest`, with `kept` the prefix of elements left in the queue so far.  When an
item is dispatched and `executingCount` reaches the slot count, the Go code
returns from the loop before `pendingItems.Remove(el)` runs, so the
dispatched item stays in the queue. -/
def flushLoop (ab : AB K V) : List (BItem K V) → List (BItem K V) → AB K V
  | [], kept => { ab with pending := kept }
  | item :: rest, kept =>
    match batchForM ab item.key with
    | some i =>
      let ab1 := addToBatch ab item i
      if ab1.executingCount = ab1.batches.length then
        { ab1 with pending := kept ++ item :: rest }
      else
        flushLoop ab1 rest kept
    | none => flushLoop ab rest (kept ++ [item])

/-- `AsyncBatcher.flushPendingItems`. -/
def flushPendingItems (ab : AB K V) : AB K V :=
  flushLoop ab ab.pending []

/-- The tail of `AsyncBatcher.executeBatch` for slot `i`: the executor ran on
the slot's items (recorded in `execLog`), then under the mutex the code
decrements `executingCount`, resets the slot, and flushes pending items.
Guarded on the slot being `Executing`, which is the only way the goroutine
gets spawned. -/
def batchComplete (ab : AB K V) (i : Nat) : AB K V :=
  let s := slotAt ab i
  if s.state = SState.Executing then
    flushPendingItems
      (resetSlot
        { ab with
          execLog := ab.execLog ++ [s.items],
          executingCount := ab.executingCount - 1 } i)
  else ab

/-- An atomic step of the batcher: a per-item `add`, a flush-timer firing
(whose callback runs `conditionallyExecuteBatch` under the mutex), or the
completion of an executing slot. -/
inductive BEvent (K V : Type) where
  | add (item : BItem K V)
  | timerFire (i : Nat)
  | complete (i : Nat)

/-- One step of the interleaving model of the batcher. -/
def stepEvent (ab : AB K V) : BEvent K V → AB K V
  | BEvent.add item => addItem ab item
  | BEvent.timerFire i => condExec ab i
  | BEvent.complete i => batchComplete ab i

/-- A run of the batcher from a state through a list of events. -/
def runEvents (ab : AB K V) (es : List (BEvent K V)) : AB K V :=
  es.foldl stepEvent ab

/-- The slot vector built by `NewAsyncBatcher`: `maxConcurrentBatches` empty
`Ready` slots. -/
def initAB (maxBatchSize maxConcurrentBatches : Nat) : AB K V :=
  { batches := List.replicate maxConcurrentBatches ⟨[], SState.Ready, false⟩,
    assignments := [],
    pending := [],
    executingCount := 0,
    maxBatchSize := maxBatchSize,
    execLog := [] }

/-! ### `Batch` completion fan-in (`Batch.completeItem`) -/

/-- The completion-relevant state of a `Batch[S,K,V]`: the length of `Items`,
whether a user `callback` was supplied, the atomic `completed` counter, and
ghost counters of how often each terminal action fired (`callback(b)`
resp. the default `AsyncJobComplete` submission). -/
structure BatchM where
  nItems : Nat
  hasCallback : Bool
  completed : Nat
  callbackFires : Nat
  defaultFires : Nat
  deriving DecidableEq, Repr

/-- `Batch.completeItem`: increment `completed`; when the incremented value
equals `len(b.Items)` fire the callback if present, otherwise submit the
default async-complete job. -/
def completeItem (b : BatchM) : BatchM :=
  let c := b.completed + 1
  if c = b.nItems then
    if b.hasCallback then
      { b with completed := c, callbackFires := b.callbackFires + 1 }
    else
      { b with completed := c, defaultFires := b.defaultFires + 1 }
  else
    { b with completed := c }

/-- `k` successive calls of `completeItem` on a batch. -/
def completeCalls (b : BatchM) : Nat → BatchM
  | 0 => b
  | k + 1 => completeItem (completeCalls b k)

/-- A freshly constructed batch (`NewBatch` then `Add`): counter at zero,
no terminal action fired yet. -/
def freshBatch (n : Nat) (cb : Bool) : BatchM :=
  { nItems := n, hasCallback := cb, completed := 0, callbackFires := 0, defaultFires := 0 }

/-! ### Partition worker -/

/-- The `ExecutionState` enum of the worker package. -/
inductive ExecState where
  | Complete
  | Incomplete
  | Fatal
  | unknownType
  deriving DecidableEq, Repr

/-- An inbound Kafka record as the worker sees it: its offset.  A slice
element that is Go `nil` is embedded as `none` at the use site. -/
structure RecM where
  offset : Int
  deriving DecidableEq, Repr

/-- An `EventContext` as consumed by `handleEvent`/`forwardToEventSource`:
the record's offset, whether `<-ec.producerChan` yields a non-nil producer,
and the `(ExecutionState, error)` the user handler would return (the error
is embedded as a flag). -/
structure ECtxM where
  offset : Int
  producerYield : Bool
  handlerState : ExecState
  handlerErr : Bool
  deriving DecidableEq, Repr

/-- An `asyncJob` as drained by the `work` loop: the context's offset and
the `(ExecutionState, error)` result of its `finalize()`. -/
structure AsyncJobM where
  ctxOffset : Int
  finState : ExecState
  finErr : Bool
  deriving DecidableEq, Repr

/-- The observable state of a `partitionWorker`: the atomic counters, the
offset watermark, the revocation wait-group counter, and ghost logs of the
producer-pool registrations, `eventInput` sends, user-handler invocations,
`log.Errorf` calls and `ec.complete()` calls. -/
structure PW where
  pending : Int
  processed : Int
  highestOffset : Int
  revocationWaiter : Int
  registered : List RecM
  eventInput : List RecM
  handlerCalls : Nat
  logs : Nat
  completedCtxs : List Int
  deriving DecidableEq, Repr

/-- The loop body of `scheduleTxnAndExecution` for one slice element. -/
def scheduleStep (s : PW) (r : Option RecM) : PW :=
  match r with
  | some rec =>
    if rec.offset ≥ s.highestOffset then
      { s with registered := s.registered ++ [rec], eventInput := s.eventInput ++ [rec] }
    else
      { s with revocationWaiter := s.revocationWaiter - 1 }
  | none => { s with revocationWaiter := s.revocationWaiter - 1 }

/-- `partitionWorker.scheduleTxnAndExecution`: bulk-add `len(records)` to the
revocation waiter, then for each non-nil record at or above `highestOffset`
build an event context, register it with the producer pool, and send it on
`eventInput`; anything else decrements the waiter. -/
def scheduleTxnAndExecution (pw : PW) (records : List (Option RecM)) : PW :=
  records.foldl scheduleStep
    { pw with revocationWaiter := pw.revocationWaiter + records.length }

/-- `partitionWorker.forwardToEventSource`: block on `ec.producerChan`; a nil
producer returns immediately, otherwise invoke the user handler, log a
returned error, and on `Complete` mark the context complete. -/
def forwardToEventSource (pw : PW) (ec : ECtxM) : PW :=
  if ec.producerYield = false then
    pw
  else
    let pw1 := { pw with handlerCalls := pw.handlerCalls + 1 }
    if ec.handlerErr then
      { pw1 with logs := pw1.logs + 1 }
    else if ec.handlerState = ExecState.Complete then
      { pw1 with completedCtxs := pw1.completedCtxs ++ [ec.offset] }
    else
      pw1

/-- `partitionWorker.handleEvent`: decrement `pending`, forward to the event
source, then advance `highestOffset` to `offset + 1` and bump `processed`. -/
def handleEvent (pw : PW) (ec : ECtxM) : PW :=
  let offset := ec.offset
  let pw1 := { pw with pending := pw.pending - 1 }
  let pw2 := forwardToEventSource pw1 ec
  { pw2 with highestOffset := offset + 1, processed := pw2.processed + 1 }

/-- The `asyncJobs` branch of the `work` select loop: `state, _ :=
job.finalize()`; when the state is `Complete`, `job.ctx.complete()`; the
error result is bound to the blank identifier. -/
def workAsyncJob (pw : PW) (job : AsyncJobM) : PW :=
  let state := job.finState
  if state = ExecState.Complete then
    { pw with completedCtxs := pw.completedCtxs ++ [job.ctxOffset] }
  else
    pw

/-- The `work` loop draining a sequence of async jobs, one select iteration
per job. -/
def workAsyncJobs (pw : PW) (jobs : List AsyncJobM) : PW :=
  jobs.foldl workAsyncJob pw

/-! ### `NewAsyncBatcher` delay normalization -/

/-- One `time.Millisecond` in nanoseconds (`time.Duration` units). -/
def millisecondNs : Int := 1000000

/-- Modelled from the spec: `sak.Abs` (package `sak` is not part of the
embedded sources); the spec says negatives are "normalized to its absolute
value". -/
def sakAbs (d : Int) : Int :=
  if d < 0 then -d else d

/-- The `BatchDelay` computed by `NewAsyncBatcher`: a zero `delay` is first
replaced by `time.Millisecond * 5`, then `sak.Abs` is applied. -/
def newBatchDelay (delay : Int) : Int :=
  sakAbs (if delay = 0 then 5 * millisecondNs else delay)

/-- List-level form of `slotAt`, for induction over the slot vector. -/
def slotAtL {K V : Type} (l : List (ASlot K V)) (j : Nat) : ASlot K V :=
  (l[j]?).getD ⟨[], SState.Executing, false⟩

/-- The sublist of records `scheduleTxnAndExecution` forwards, per the spec:
the non-nil records whose offset is at least `highestOffset`. -/
def freshRecords (h : Int) (records : List (Option RecM)) : List RecM :=
  records.filterMap (fun r =>
    match r with
    | some rec => if rec.offset ≥ h then some rec else none
    | none => none)

/-- A one-slot, batch-size-one batcher, the smallest configuration on which
the pending-queue flush misbehaves. -/
def abBug0 : AB Nat Nat := initAB 1 1

/-- First item admitted in the bug scenario; fills and dispatches slot 0. -/
def itemA : BItem Nat Nat := ⟨0, 0⟩

/-- Second item in the bug scenario; parked in the pending queue while
slot 0 executes. -/
def itemB : BItem Nat Nat := ⟨1, 1⟩

/-- The bug scenario: admit `itemA` (slot 0 dispatches), admit `itemB`
(goes pending), then complete slot 0 three times; each completion re-flushes
the pending queue. -/
def bugTrace : List (BEvent Nat Nat) :=
  [BEvent.add itemA, BEvent.add itemB, BEvent.complete 0,
   BEvent.complete 0, BEvent.complete 0]

/-- A two-slot batcher state with key `5` held by the executing slot 0,
used to instantiate the invariant and admission theorems. -/
def abW : AB Nat Nat :=
  { batches := [⟨[⟨5, 0⟩], SState.Executing, false⟩, ⟨[], SState.Ready, false⟩],
    assignments := [(5, 0)],
    pending := [],
    executingCount := 1,
    maxBatchSize := 2,
    execLog := [] }

/-- A concrete worker state used to instantiate the worker theorems. -/
def pwW : PW := ⟨3, 0, 0, 0, [], [], 0, 0, []⟩

/-! ### Association-list lemmas -/

theorem lookupA_eraseA {K : Type} [DecidableEq K] (m : List (K × Nat)) (k k' : K) :
    lookupA (eraseA m k) k' = if k' = k then none else lookupA m k' := by
  induction m with
  | nil => simp [eraseA, lookupA]
  | cons p rest ih =>
    obtain ⟨k0, v0⟩ := p
    by_cases h0 : k0 = k
    · simp only [eraseA, if_pos h0, ih, lookupA]
      by_cases h1 : k' = k
      · simp [h1]
      · have h2 : ¬ k' = k0 := fun hh => h1 (h0 ▸ hh)
        simp [h1, h2]
    · simp only [eraseA, if_neg h0, lookupA]
      rw [ih]
      by_cases h1 : k' = k0
      · have h2 : ¬ k' = k := fun hh => h0 (h1 ▸ hh)
        simp [h1, h2, h0]
      · simp [h1]

theorem lookupA_insertA {K : Type} [DecidableEq K] (m : List (K × Nat)) (k k' : K) (v : Nat) :
    lookupA (insertA m k v) k' = if k' = k then some v else lookupA m k' := by
  by_cases h : k' = k <;> simp [insertA, lookupA, h, lookupA_eraseA]

theorem lookupA_mem {K : Type} [DecidableEq K] {m : List (K × Nat)} {k : K} {v : Nat}
    (h : lookupA m k = some v) : (k, v) ∈ m := by
  induction m with
  | nil => simp [lookupA] at h
  | cons p rest ih =>
    obtain ⟨k0, v0⟩ := p
    by_cases h0 : k = k0
    · rw [lookupA, if_pos h0] at h
      injection h with hv
      rw [h0, hv]
      exact List.mem_cons_self _ _
    · rw [lookupA, if_neg h0] at h
      exact List.mem_cons_of_mem _ (ih h)

theorem mem_eraseA {K : Type} [DecidableEq K] {m : List (K × Nat)} {k : K} {p : K × Nat} :
    p ∈ eraseA m k ↔ p ∈ m ∧ p.1 ≠ k := by
  induction m with
  | nil => simp [eraseA]
  | cons q rest ih =>
    obtain ⟨k0, v0⟩ := q
    by_cases h0 : k0 = k
    · simp only [eraseA, if_pos h0, ih, List.mem_cons]
      constructor
      · rintro ⟨hp, hne⟩; exact ⟨Or.inr hp, hne⟩
      · rintro ⟨hp | hp, hne⟩
        · exact absurd (by rw [hp]; exact h0) hne
        · exact ⟨hp, hne⟩
    · simp only [eraseA, if_neg h0, List.mem_cons, ih]
      constructor
      · rintro (hp | ⟨hp, hne⟩)
        · refine ⟨Or.inl hp, ?_⟩
          rw [hp]
          exact h0
        · exact ⟨Or.inr hp, hne⟩
      · rintro ⟨hp | hp, hne⟩
        · exact Or.inl hp
        · exact Or.inr ⟨hp, hne⟩

theorem mem_insertA {K : Type} [DecidableEq K] {m : List (K × Nat)} {k : K} {v : Nat}
    {p : K × Nat} :
    p ∈ insertA m k v ↔ p = (k, v) ∨ (p ∈ m ∧ p.1 ≠ k) := by
  simp [insertA, mem_eraseA]

/-- The `assignments` map after the delete loop of `asyncBatch.reset`. -/
theorem lookupA_eraseFold {K V : Type} [DecidableEq K]
    (items : List (BItem K V)) (m : List (K × Nat)) (k : K) :
    lookupA (items.foldl (fun m it => eraseA m it.key) m) k
      = if k ∈ items.map (fun it => it.key) then none else lookupA m k := by
  induction items generalizing m with
  | nil => simp
  | cons it rest ih =>
    simp only [List.foldl_cons, ih, List.map_cons, List.mem_cons]
    by_cases hk : k ∈ rest.map (fun it => it.key)
    · simp [hk]
    · by_cases h0 : k = it.key
      · simp [hk, h0, lookupA_eraseA]
      · simp [hk, h0, lookupA_eraseA]

theorem mem_eraseFold {K V : Type} [DecidableEq K]
    {items : List (BItem K V)} {m : List (K × Nat)} {p : K × Nat} :
    p ∈ items.foldl (fun m it => eraseA m it.key) m
      ↔ p ∈ m ∧ p.1 ∉ items.map (fun it => it.key) := by
  induction items generalizing m with
  | nil => simp
  | cons it rest ih =>
    simp only [List.foldl_cons, ih, mem_eraseA, List.map_cons, List.mem_cons]
    tauto

/-! ### Slot-access lemmas -/

theorem slotAt_of_le {K V : Type} {ab : AB K V} {i : Nat}
    (h : ab.batches.length ≤ i) : slotAt ab i = ⟨[], SState.Executing, false⟩ := by
  simp [slotAt, List.getElem?_eq_none h]

theorem lt_of_mem_keysAt {K V : Type} {ab : AB K V} {i : Nat} {k : K}
    (h : k ∈ keysAt ab i) : i < ab.batches.length := by
  by_contra hlt
  rw [keysAt, slotAt_of_le (Nat.le_of_not_lt hlt)] at h
  simp [slotKeys] at h

theorem lt_of_ready {K V : Type} {ab : AB K V} {i : Nat}
    (h : (slotAt ab i).state = SState.Ready) : i < ab.batches.length := by
  by_contra hlt
  rw [slotAt_of_le (Nat.le_of_not_lt hlt)] at h
  simp at h

/-- The effect of `List.set` on `slotAt`, for any state whose `batches` are
an update of `ab`'s. -/
theorem slotAt_update {K V : Type} {ab ab' : AB K V} {i : Nat} {s : ASlot K V}
    (h : ab'.batches = ab.batches.set i s) (j : Nat) :
    slotAt ab' j = if i = j ∧ i < ab.batches.length then s else slotAt ab j := by
  unfold slotAt
  rw [h, List.getElem?_set]
  by_cases hij : i = j
  · subst hij
    by_cases hl : i < ab.batches.length
    · simp [hl]
    · simp [hl, List.getElem?_eq_none (Nat.le_of_not_lt hl)]
  · simp [hij]

theorem keysAt_update {K V : Type} {ab ab' : AB K V} {i : Nat} {s : ASlot K V}
    (h : ab'.batches = ab.batches.set i s) (j : Nat) :
    keysAt ab' j = if i = j ∧ i < ab.batches.length then slotKeys s else keysAt ab j := by
  rw [keysAt, slotAt_update h, keysAt]
  split <;> rfl

/-! ### The slot-occupancy invariant -/

/-- Invariant of the batcher: every `assignments` entry points at a slot that
holds its key, and every key held by a slot is assigned to that slot. -/
def Inv {K V : Type} [DecidableEq K] (ab : AB K V) : Prop :=
  (∀ p ∈ ab.assignments, p.1 ∈ keysAt ab p.2)
  ∧ (∀ i ∈ List.range ab.batches.length, ∀ k ∈ keysAt ab i,
      lookupA ab.assignments k = some i)

instance {K V : Type} [DecidableEq K] (ab : AB K V) : Decidable (Inv ab) := by
  unfold Inv
  infer_instance

theorem Inv.lookup_of_mem_keysAt {K V : Type} [DecidableEq K] {ab : AB K V}
    (hInv : Inv ab) {i : Nat} {k : K} (h : k ∈ keysAt ab i) :
    lookupA ab.assignments k = some i :=
  hInv.2 i (List.mem_range.mpr (lt_of_mem_keysAt h)) k h

theorem Inv_congr {K V : Type} [DecidableEq K] {ab ab' : AB K V}
    (ha : ab'.assignments = ab.assignments)
    (hl : ab'.batches.length = ab.batches.length)
    (hk : ∀ j, keysAt ab' j = keysAt ab j) :
    Inv ab → Inv ab' := by
  rintro ⟨h1, h2⟩
  constructor
  · intro p hp
    rw [hk]
    exact h1 p (ha ▸ hp)
  · intro i hi k hkm
    rw [ha]
    exact h2 i (hl ▸ hi) k ((hk i) ▸ hkm)

/-! ### Effect of each batcher operation on `assignments` and slot keys -/

theorem condExec_assignments {K V : Type} [DecidableEq K] (ab : AB K V) (i : Nat) :
    (condExec ab i).assignments = ab.assignments := by
  simp only [condExec]
  split <;> rfl

theorem condExec_length {K V : Type} [DecidableEq K] (ab : AB K V) (i : Nat) :
    (condExec ab i).batches.length = ab.batches.length := by
  simp only [condExec]
  split
  · exact List.length_set ab.batches i _
  · rfl

theorem condExec_keysAt {K V : Type} [DecidableEq K] (ab : AB K V) (i : Nat) (j : Nat) :
    keysAt (condExec ab i) j = keysAt ab j := by
  simp only [condExec]
  split
  · rw [keysAt_update rfl j]
    split
    · rename_i hcond
      obtain ⟨rfl, -⟩ := hcond
      rfl
    · rfl
  · rfl

theorem addToBatch_assignments {K V : Type} [DecidableEq K]
    (ab : AB K V) (item : BItem K V) (i : Nat) :
    (addToBatch ab item i).assignments = insertA ab.assignments item.key i := by
  simp only [addToBatch]
  split
  · rw [condExec_assignments]
  · split <;> rfl

theorem addToBatch_length {K V : Type} [DecidableEq K]
    (ab : AB K V) (item : BItem K V) (i : Nat) :
    (addToBatch ab item i).batches.length = ab.batches.length := by
  simp only [addToBatch]
  split
  · rw [condExec_length]
    exact List.length_set ab.batches i _
  · split
    · simp [List.length_set]
    · exact List.length_set ab.batches i _

theorem addToBatch_keysAt {K V : Type} [DecidableEq K]
    {ab : AB K V} {item : BItem K V} {i : Nat} (hi : i < ab.batches.length) (j : Nat) :
    keysAt (addToBatch ab item i) j
      = if i = j then keysAt ab i ++ [item.key] else keysAt ab j := by
  simp only [addToBatch]
  split
  · rw [condExec_keysAt, keysAt_update rfl j]
    by_cases hij : i = j
    · subst hij
      simp [hi, slotKeys, keysAt]
    · simp [hij]
  · split
    · rw [keysAt_update (List.set_set _ _ ab.batches i) j]
      by_cases hij : i = j
      · subst hij
        simp [hi, slotKeys, keysAt]
      · simp [hij]
    · rw [keysAt_update rfl j]
      by_cases hij : i = j
      · subst hij
        simp [hi, slotKeys, keysAt]
      · simp [hij]

theorem resetSlot_assignments {K V : Type} [DecidableEq K] (ab : AB K V) (i : Nat) :
    (resetSlot ab i).assignments
      = (slotAt ab i).items.foldl (fun m it => eraseA m it.key) ab.assignments := rfl

theorem resetSlot_length {K V : Type} [DecidableEq K] (ab : AB K V) (i : Nat) :
    (resetSlot ab i).batches.length = ab.batches.length := by
  simp only [resetSlot]
  exact List.length_set ab.batches i _

theorem resetSlot_keysAt {K V : Type} [DecidableEq K] (ab : AB K V) (i : Nat) (j : Nat) :
    keysAt (resetSlot ab i) j
      = if i = j ∧ i < ab.batches.length then [] else keysAt ab j := by
  simp only [resetSlot]
  rw [keysAt_update rfl j]
  split <;> rfl

/-! ### Preservation of the invariant -/

theorem firstReadyIdx_lt {K V : Type} :
    ∀ {l : List (ASlot K V)} {j : Nat}, firstReadyIdx l = some j → j < l.length := by
  intro l
  induction l with
  | nil => intro j h; simp [firstReadyIdx] at h
  | cons s rest ih =>
    intro j h
    simp only [firstReadyIdx] at h
    split at h
    · injection h with h
      simp only [List.length_cons]
      omega
    · obtain ⟨j0, hj0, rfl⟩ := Option.map_eq_some'.mp h
      have := ih hj0
      simp only [List.length_cons]
      omega

theorem batchForM_some {K V : Type} [DecidableEq K] {ab : AB K V} {k : K} {i : Nat}
    (hInv : Inv ab) (h : batchForM ab k = some i) :
    i < ab.batches.length
      ∧ (lookupA ab.assignments k = some i ∨ lookupA ab.assignments k = none) := by
  unfold batchForM at h
  split at h
  · rename_i i0 heq
    split at h
    · injection h with h
      subst h
      exact ⟨lt_of_mem_keysAt (hInv.1 (k, i0) (lookupA_mem heq)), Or.inl heq⟩
    · cases h
  · rename_i heq
    exact ⟨firstReadyIdx_lt h, Or.inr heq⟩

theorem Inv_condExec {K V : Type} [DecidableEq K] {ab : AB K V} (h : Inv ab) (i : Nat) :
    Inv (condExec ab i) :=
  Inv_congr (condExec_assignments ab i) (condExec_length ab i) (condExec_keysAt ab i) h

theorem Inv_addToBatch {K V : Type} [DecidableEq K] {ab : AB K V} {item : BItem K V} {i : Nat}
    (hInv : Inv ab) (hi : i < ab.batches.length)
    (hl : lookupA ab.assignments item.key = some i ∨ lookupA ab.assignments item.key = none) :
    Inv (addToBatch ab item i) := by
  obtain ⟨h1, h2⟩ := hInv
  constructor
  · intro p hp
    rw [addToBatch_assignments, mem_insertA] at hp
    rw [addToBatch_keysAt hi]
    rcases hp with rfl | ⟨hp, hne⟩
    · simp
    · by_cases hij : i = p.2
      · rw [if_pos hij]
        exact List.mem_append_left _ (hij ▸ h1 p hp)
      · rw [if_neg hij]
        exact h1 p hp
  · intro i' hi' k hk
    rw [addToBatch_length] at hi'
    rw [addToBatch_keysAt hi] at hk
    rw [addToBatch_assignments, lookupA_insertA]
    by_cases hij : i = i'
    · subst hij
      rw [if_pos rfl] at hk
      by_cases hkk : k = item.key
      · rw [if_pos hkk]
      · rw [if_neg hkk]
        rcases List.mem_append.mp hk with hk0 | hk0
        · exact h2 i hi' k hk0
        · simp only [List.mem_singleton] at hk0
          exact absurd hk0 hkk
    · rw [if_neg hij] at hk
      by_cases hkk : k = item.key
      · exfalso
        subst hkk
        have hsome := h2 i' hi' _ hk
        rcases hl with hl | hl
        · rw [hsome] at hl
          injection hl with hl
          exact hij hl.symm
        · rw [hsome] at hl
          cases hl
      · rw [if_neg hkk]
        exact h2 i' hi' k hk

theorem Inv_addItem {K V : Type} [DecidableEq K] {ab : AB K V} (h : Inv ab)
    (item : BItem K V) : Inv (addItem ab item) := by
  unfold addItem
  split
  · rename_i i hb
    obtain ⟨hi, hl⟩ := batchForM_some h hb
    exact Inv_addToBatch h hi hl
  · exact Inv_congr rfl rfl (fun j => rfl) h

theorem Inv_resetSlot {K V : Type} [DecidableEq K] {ab : AB K V} (hInv : Inv ab) (i : Nat) :
    Inv (resetSlot ab i) := by
  obtain ⟨h1, h2⟩ := hInv
  constructor
  · intro p hp
    rw [resetSlot_assignments, mem_eraseFold] at hp
    obtain ⟨hp, hnk⟩ := hp
    rw [resetSlot_keysAt]
    split
    · rename_i hcond
      obtain ⟨rfl, -⟩ := hcond
      exact absurd (h1 p hp) hnk
    · exact h1 p hp
  · intro i' hi' k hk
    rw [resetSlot_length] at hi'
    rw [resetSlot_keysAt] at hk
    rw [resetSlot_assignments, lookupA_eraseFold]
    split at hk
    · cases hk
    · rename_i hcond
      have hmain := h2 i' hi' k hk
      have hnk : ¬ k ∈ List.map (fun it => it.key) (slotAt ab i).items := by
        intro hk0
        have hk1 : k ∈ keysAt ab i := hk0
        have hlt : i < ab.batches.length := lt_of_mem_keysAt hk1
        have := h2 i (List.mem_range.mpr hlt) k hk1
        rw [hmain] at this
        injection this with this
        exact hcond ⟨this.symm, hlt⟩
      rw [if_neg hnk]
      exact hmain

theorem Inv_flushLoop {K V : Type} [DecidableEq K] :
    ∀ (rest kept : List (BItem K V)) (ab : AB K V), Inv ab → Inv (flushLoop ab rest kept) := by
  intro rest
  induction rest with
  | nil =>
    intro kept ab h
    exact Inv_congr rfl rfl (fun j => rfl) h
  | cons item rest ih =>
    intro kept ab h
    simp only [flushLoop]
    split
    · rename_i i hb
      obtain ⟨hi, hl⟩ := batchForM_some h hb
      have h1 : Inv (addToBatch ab item i) := Inv_addToBatch h hi hl
      split
      · exact Inv_congr rfl rfl (fun j => rfl) h1
      · exact ih kept _ h1
    · exact ih (kept ++ [item]) ab h

theorem Inv_flushPendingItems {K V : Type} [DecidableEq K] {ab : AB K V} (h : Inv ab) :
    Inv (flushPendingItems ab) :=
  Inv_flushLoop ab.pending [] ab h

theorem Inv_batchComplete {K V : Type} [DecidableEq K] {ab : AB K V} (h : Inv ab) (i : Nat) :
    Inv (batchComplete ab i) := by
  simp only [batchComplete]
  split
  · exact Inv_flushPendingItems (Inv_resetSlot (Inv_congr rfl rfl (fun j => rfl) h) i)
  · exact h

theorem Inv_stepEvent {K V : Type} [DecidableEq K] {ab : AB K V} (h : Inv ab)
    (e : BEvent K V) : Inv (stepEvent ab e) := by
  cases e with
  | add item => exact Inv_addItem h item
  | timerFire i => exact Inv_condExec h i
  | complete i => exact Inv_batchComplete h i

theorem Inv_initAB {K V : Type} [DecidableEq K] (mbs mcb : Nat) :
    Inv (initAB mbs mcb : AB K V) := by
  have hkeys : ∀ i, keysAt (initAB mbs mcb : AB K V) i = [] := by
    intro i
    unfold keysAt slotAt initAB
    simp only [List.getElem?_replicate]
    by_cases h : i < mcb
    · simp [h, slotKeys]
    · simp [h, slotKeys]
  constructor
  · intro p hp
    simp [initAB] at hp
  · intro i hi k hk
    rw [hkeys] at hk
    cases hk

/-! ### Characterization of the slot scan -/

theorem slotAt_eq_slotAtL {K V : Type} (ab : AB K V) (j : Nat) :
    slotAt ab j = slotAtL ab.batches j := rfl

theorem firstReadyIdx_iff_L {K V : Type} :
    ∀ (l : List (ASlot K V)) (j : Nat),
      firstReadyIdx l = some j
        ↔ ((slotAtL l j).state = SState.Ready
            ∧ ∀ j' < j, (slotAtL l j').state ≠ SState.Ready) := by
  intro l
  induction l with
  | nil =>
    intro j
    simp [firstReadyIdx, slotAtL]
  | cons s rest ih =>
    intro j
    by_cases hs : s.state = SState.Ready
    · simp only [firstReadyIdx, if_pos hs]
      cases j with
      | zero =>
        simp only [Option.some.injEq, slotAtL, List.getElem?_cons_zero, Option.getD_some]
        constructor
        · intro _
          exact ⟨hs, fun j' hj' => absurd hj' (Nat.not_lt_zero j')⟩
        · intro _
          trivial
      | succ j0 =>
        simp only [Option.some.injEq]
        constructor
        · intro h
          omega
        · rintro ⟨-, hall⟩
          exact absurd hs (by simpa [slotAtL] using hall 0 (Nat.succ_pos j0))
    · simp only [firstReadyIdx, if_neg hs]
      cases j with
      | zero =>
        simp only [slotAtL, List.getElem?_cons_zero, Option.getD_some]
        constructor
        · intro h
          obtain ⟨j0, -, hj0⟩ := Option.map_eq_some'.mp h
          omega
        · rintro ⟨h, -⟩
          exact absurd h hs
      | succ j0 =>
        constructor
        · intro h
          obtain ⟨j1, hj1, hj1e⟩ := Option.map_eq_some'.mp h
          have hj : j1 = j0 := by omega
          subst hj
          obtain ⟨hr, hall⟩ := (ih j1).mp hj1
          refine ⟨by simpa [slotAtL] using hr, ?_⟩
          intro j' hj'
          cases j' with
          | zero => simpa [slotAtL] using hs
          | succ j2 =>
            have := hall j2 (by omega)
            simpa [slotAtL] using this
        · rintro ⟨hr, hall⟩
          have hr' : (slotAtL rest j0).state = SState.Ready := by
            simpa [slotAtL] using hr
          have hall' : ∀ j' < j0, (slotAtL rest j').state ≠ SState.Ready := by
            intro j' hj'
            have := hall (j' + 1) (by omega)
            simpa [slotAtL] using this
          rw [(ih j0).mpr ⟨hr', hall'⟩]
          rfl

theorem firstReadyIdx_none_iff_L {K V : Type} :
    ∀ l : List (ASlot K V),
      firstReadyIdx l = none ↔ ∀ j, (slotAtL l j).state ≠ SState.Ready := by
  intro l
  induction l with
  | nil =>
    simp [firstReadyIdx, slotAtL]
  | cons s rest ih =>
    by_cases hs : s.state = SState.Ready
    · simp only [firstReadyIdx, if_pos hs]
      constructor
      · intro h
        cases h
      · intro h
        exact absurd hs (by simpa [slotAtL] using h 0)
    · simp only [firstReadyIdx, if_neg hs]
      rw [Option.map_eq_none', ih]
      constructor
      · intro h j
        cases j with
        | zero => simpa [slotAtL] using hs
        | succ j0 => simpa [slotAtL] using h j0
      · intro h j
        simpa [slotAtL] using h (j + 1)

/-! ### Worker-loop helper lemmas -/

theorem forwardToEventSource_nil {pw : PW} {ec : ECtxM} (h : ec.producerYield = false) :
    forwardToEventSource pw ec = pw := by
  simp [forwardToEventSource, h]

theorem forwardToEventSource_calls {pw : PW} {ec : ECtxM} (h : ec.producerYield = true) :
    (forwardToEventSource pw ec).handlerCalls = pw.handlerCalls + 1 := by
  unfold forwardToEventSource
  rw [h]
  simp only [Bool.true_eq_false, if_false]
  split
  · rfl
  · split <;> rfl

theorem forwardToEventSource_pending (pw : PW) (ec : ECtxM) :
    (forwardToEventSource pw ec).pending = pw.pending := by
  unfold forwardToEventSource
  split
  · rfl
  · split
    · rfl
    · split <;> rfl

theorem forwardToEventSource_processed (pw : PW) (ec : ECtxM) :
    (forwardToEventSource pw ec).processed = pw.processed := by
  unfold forwardToEventSource
  split
  · rfl
  · split
    · rfl
    · split <;> rfl

theorem scheduleStep_none (s : PW) :
    scheduleStep s none = { s with revocationWaiter := s.revocationWaiter - 1 } := rfl

theorem scheduleStep_fresh {s : PW} {rec : RecM} (ho : rec.offset ≥ s.highestOffset) :
    scheduleStep s (some rec)
      = { s with registered := s.registered ++ [rec],
                 eventInput := s.eventInput ++ [rec] } := by
  simp [scheduleStep, ho]

theorem scheduleStep_stale {s : PW} {rec : RecM} (ho : ¬ rec.offset ≥ s.highestOffset) :
    scheduleStep s (some rec)
      = { s with revocationWaiter := s.revocationWaiter - 1 } := by
  simp [scheduleStep]
  omega

theorem scheduleFold_highestOffset :
    ∀ (records : List (Option RecM)) (s : PW),
      (records.foldl scheduleStep s).highestOffset = s.highestOffset := by
  intro records
  induction records with
  | nil => intro s; rfl
  | cons r rest ih =>
    intro s
    rw [List.foldl_cons, ih]
    cases r with
    | none => rfl
    | some rec =>
      by_cases ho : rec.offset ≥ s.highestOffset
      · rw [scheduleStep_fresh ho]
      · rw [scheduleStep_stale ho]

theorem scheduleFold_handlerCalls :
    ∀ (records : List (Option RecM)) (s : PW),
      (records.foldl scheduleStep s).handlerCalls = s.handlerCalls := by
  intro records
  induction records with
  | nil => intro s; rfl
  | cons r rest ih =>
    intro s
    rw [List.foldl_cons, ih]
    cases r with
    | none => rfl
    | some rec =>
      by_cases ho : rec.offset ≥ s.highestOffset
      · rw [scheduleStep_fresh ho]
      · rw [scheduleStep_stale ho]

theorem scheduleFold_completedCtxs :
    ∀ (records : List (Option RecM)) (s : PW),
      (records.foldl scheduleStep s).completedCtxs = s.completedCtxs := by
  intro records
  induction records with
  | nil => intro s; rfl
  | cons r rest ih =>
    intro s
    rw [List.foldl_cons, ih]
    cases r with
    | none => rfl
    | some rec =>
      by_cases ho : rec.offset ≥ s.highestOffset
      · rw [scheduleStep_fresh ho]
      · rw [scheduleStep_stale ho]

theorem scheduleFold_eventInput :
    ∀ (records : List (Option RecM)) (s : PW),
      (records.foldl scheduleStep s).eventInput
        = s.eventInput ++ freshRecords s.highestOffset records := by
  intro records
  induction records with
  | nil => intro s; simp [freshRecords]
  | cons r rest ih =>
    intro s
    rw [List.foldl_cons, ih]
    cases r with
    | none => rfl
    | some rec =>
      by_cases ho : rec.offset ≥ s.highestOffset
      · rw [scheduleStep_fresh ho]
        simp only [freshRecords, List.filterMap_cons]
        rw [if_pos ho]
        simp
      · rw [scheduleStep_stale ho]
        simp only [freshRecords, List.filterMap_cons]
        rw [if_neg ho]

theorem scheduleFold_registered :
    ∀ (records : List (Option RecM)) (s : PW),
      (records.foldl scheduleStep s).registered
        = s.registered ++ freshRecords s.highestOffset records := by
  intro records
  induction records with
  | nil => intro s; simp [freshRecords]
  | cons r rest ih =>
    intro s
    rw [List.foldl_cons, ih]
    cases r with
    | none => rfl
    | some rec =>
      by_cases ho : rec.offset ≥ s.highestOffset
      · rw [scheduleStep_fresh ho]
        simp only [freshRecords, List.filterMap_cons]
        rw [if_pos ho]
        simp
      · rw [scheduleStep_stale ho]
        simp only [freshRecords, List.filterMap_cons]
        rw [if_neg ho]

theorem scheduleFold_revocationWaiter :
    ∀ (records : List (Option RecM)) (s : PW),
      (records.foldl scheduleStep s).revocationWaiter
        = s.revocationWaiter - records.length
            + (freshRecords s.highestOffset records).length := by
  intro records
  induction records with
  | nil => intro s; simp [freshRecords]
  | cons r rest ih =>
    intro s
    rw [List.foldl_cons, ih]
    cases r with
    | none =>
      rw [scheduleStep_none]
      simp only [freshRecords, List.filterMap_cons, List.length_cons]
      omega
    | some rec =>
      by_cases ho : rec.offset ≥ s.highestOffset
      · rw [scheduleStep_fresh ho]
        simp only [freshRecords, List.filterMap_cons]
        rw [if_pos ho]
        simp only [List.length_cons]
        omega
      · rw [scheduleStep_stale ho]
        simp only [freshRecords, List.filterMap_cons]
        rw [if_neg ho]
        simp only [List.length_cons]
        omega

theorem workAsyncJobs_spec :
    ∀ (jobs : List AsyncJobM) (pw : PW),
      (workAsyncJobs pw jobs).completedCtxs
          = pw.completedCtxs
              ++ (jobs.filter (fun j => j.finState == ExecState.Complete)).map
                  (fun j => j.ctxOffset)
      ∧ (workAsyncJobs pw jobs).logs = pw.logs
      ∧ (workAsyncJobs pw jobs).pending = pw.pending
      ∧ (workAsyncJobs pw jobs).highestOffset = pw.highestOffset
      ∧ (workAsyncJobs pw jobs).processed = pw.processed := by
  intro jobs
  induction jobs with
  | nil =>
    intro pw
    simp [workAsyncJobs]
  | cons j rest ih =>
    intro pw
    have hstep : workAsyncJobs pw (j :: rest) = workAsyncJobs (workAsyncJob pw j) rest := by
      simp [workAsyncJobs]
    rw [hstep]
    obtain ⟨hc, hl, hp, hh, hpr⟩ := ih (workAsyncJob pw j)
    by_cases hj : j.finState = ExecState.Complete
    · have hw : workAsyncJob pw j
          = { pw with completedCtxs := pw.completedCtxs ++ [j.ctxOffset] } := by
        simp [workAsyncJob, hj]
      rw [hw] at hc hl hp hh hpr ⊢
      refine ⟨?_, ?_, ?_, ?_, ?_⟩
      · rw [hc]
        simp [List.filter_cons, hj]
      · simpa using hl
      · simpa using hp
      · simpa using hh
      · simpa using hpr
    · have hw : workAsyncJob pw j = pw := by
        simp [workAsyncJob, hj]
      rw [hw] at hc hl hp hh hpr ⊢
      refine ⟨?_, hl, hp, hh, hpr⟩
      rw [hc]
      simp [List.filter_cons, hj]

/-- The state of a fresh batch after `k` calls of `completeItem`: the counter
equals `k`, and the terminal action has fired exactly once when `k` has
reached a positive `nItems`, on the side selected by `hasCallback`. -/
theorem completeCalls_spec (n : Nat) (cb : Bool) (k : Nat) :
    (completeCalls (freshBatch n cb) k).completed = k
  ∧ (completeCalls (freshBatch n cb) k).nItems = n
  ∧ (completeCalls (freshBatch n cb) k).hasCallback = cb
  ∧ (completeCalls (freshBatch n cb) k).callbackFires
      = (if cb = true then (if 1 ≤ n ∧ n ≤ k then 1 else 0) else 0)
  ∧ (completeCalls (freshBatch n cb) k).defaultFires
      = (if cb = true then 0 else (if 1 ≤ n ∧ n ≤ k then 1 else 0)) := by
  induction k with
  | zero =>
    have hng : ¬ (1 ≤ n ∧ n ≤ 0) := by omega
    refine ⟨rfl, rfl, rfl, ?_, ?_⟩ <;> by_cases hcb2 : cb = true <;>
      simp [completeCalls, freshBatch, hcb2, hng] <;> split_ifs <;> omega
  | succ k ih =>
    obtain ⟨hc, hn, hcb, hcf, hdf⟩ := ih
    simp only [completeCalls]
    unfold completeItem
    rw [hc, hn, hcb]
    by_cases hkn : k + 1 = n
    · rw [if_pos hkn]
      by_cases hcb2 : cb = true
      · rw [if_pos hcb2]
        refine ⟨rfl, rfl, rfl, ?_, ?_⟩
        · show (completeCalls (freshBatch n cb) k).callbackFires + 1
              = if cb = true then (if 1 ≤ n ∧ n ≤ k + 1 then 1 else 0) else 0
          rw [hcf, if_pos hcb2, if_pos hcb2]
          split_ifs with h1 <;> omega
        · show (completeCalls (freshBatch n cb) k).defaultFires
              = if cb = true then 0 else (if 1 ≤ n ∧ n ≤ k + 1 then 1 else 0)
          rw [hdf, if_pos hcb2, if_pos hcb2]
      · rw [if_neg hcb2]
        refine ⟨rfl, rfl, rfl, ?_, ?_⟩
        · show (completeCalls (freshBatch n cb) k).callbackFires
              = if cb = true then (if 1 ≤ n ∧ n ≤ k + 1 then 1 else 0) else 0
          rw [hcf, if_neg hcb2, if_neg hcb2]
        · show (completeCalls (freshBatch n cb) k).defaultFires + 1
              = if cb = true then 0 else (if 1 ≤ n ∧ n ≤ k + 1 then 1 else 0)
          rw [hdf, if_neg hcb2, if_neg hcb2]
          split_ifs with h1 <;> omega
    · rw [if_neg hkn]
      refine ⟨rfl, rfl, rfl, ?_, ?_⟩
      · show (completeCalls (freshBatch n cb) k).callbackFires
            = if cb = true then (if 1 ≤ n ∧ n ≤ k + 1 then 1 else 0) else 0
        rw [hcf]
        by_cases hcb2 : cb = true
        · rw [if_pos hcb2, if_pos hcb2]
          split_ifs with h1 h2 <;> omega
        · rw [if_neg hcb2, if_neg hcb2]
      · show (completeCalls (freshBatch n cb) k).defaultFires
            = if cb = true then 0 else (if 1 ≤ n ∧ n ≤ k + 1 then 1 else 0)
        rw [hdf]
        by_cases hcb2 : cb = true
        · rw [if_pos hcb2, if_pos hcb2]
        · rw [if_neg hcb2, if_neg hcb2]
          split_ifs with h1 h2 <;> omega

/-! ### The claims -/

/-- Claim C1 (code-bug evidence): the claim says a pending item that finds a
target slot is moved onto the slot, i.e. both appended there and removed from
the pending queue, so it executes exactly once.  In the code, when the
dispatch saturates all slots `flushPendingItems` returns before
`pendingItems.Remove(el)`, so the item stays queued while also sitting on the
executing slot: on a one-slot batcher with batch size one, after the trace
`add A, add B, complete 0` item `B` is in slot 0 and still pending, and after
two more completions the executor log shows `B` executed twice. -/
theorem claim1_pending_item_double_executed :
    ((runEvents abBug0 [BEvent.add itemA, BEvent.add itemB, BEvent.complete 0]).pending
        = [itemB]
      ∧ (slotAt (runEvents abBug0 [BEvent.add itemA, BEvent.add itemB, BEvent.complete 0])
          0).items = [itemB])
  ∧ (runEvents abBug0 bugTrace).execLog = [[itemA], [itemB], [itemB]] := by
  decide

/-- Claim C2: no key ever occupies more than one batcher slot.  The invariant
`Inv` (every `assignments` entry's slot holds its key, and every key held by
a slot is assigned to it) holds initially and is preserved by every batcher
event; under it, a key assigned to slot `i` lies in slot `i` and in no other
slot, and a slot's `reset` deletes from `assignments` exactly the keys of its
own items — any binding `reset` changes was a binding to that very slot. -/
theorem claim2_key_occupies_one_slot {K V : Type} [DecidableEq K] :
    (∀ mbs mcb : Nat, Inv (initAB mbs mcb : AB K V))
  ∧ (∀ (ab : AB K V) (e : BEvent K V), Inv ab → Inv (stepEvent ab e))
  ∧ (∀ ab : AB K V, Inv ab → ∀ (k : K) (i : Nat),
      lookupA ab.assignments k = some i →
        k ∈ keysAt ab i ∧ ∀ j : Nat, k ∈ keysAt ab j → j = i)
  ∧ (∀ (ab : AB K V) (i : Nat), Inv ab →
      ∀ k ∈ keysAt ab i, lookupA (resetSlot ab i).assignments k = none)
  ∧ (∀ (ab : AB K V) (i : Nat) (k : K), Inv ab →
      lookupA (resetSlot ab i).assignments k ≠ lookupA ab.assignments k →
        lookupA ab.assignments k = some i) := by
  refine ⟨Inv_initAB, fun ab e h => Inv_stepEvent h e, ?_, ?_, ?_⟩
  · intro ab hInv k i hl
    refine ⟨hInv.1 (k, i) (lookupA_mem hl), ?_⟩
    intro j hkj
    have hj := Inv.lookup_of_mem_keysAt hInv hkj
    rw [hl] at hj
    injection hj with hj
    exact hj.symm
  · intro ab i hInv k hk
    rw [resetSlot_assignments, lookupA_eraseFold]
    have hk' : k ∈ (slotAt ab i).items.map (fun it => it.key) := hk
    rw [if_pos hk']
  · intro ab i k hInv hdiff
    rw [resetSlot_assignments, lookupA_eraseFold] at hdiff
    by_cases hk : k ∈ (slotAt ab i).items.map (fun it => it.key)
    · have hk' : k ∈ keysAt ab i := hk
      exact Inv.lookup_of_mem_keysAt hInv hk'
    · rw [if_neg hk] at hdiff
      exact absurd rfl hdiff

/-- Witness for C2 at a concrete two-slot state: the invariant survives the
completion of the executing slot, and key `5` does occupy slot 0. -/
theorem claim2_witness :
    Inv (stepEvent abW (BEvent.complete 0)) ∧ 5 ∈ keysAt abW 0 :=
  ⟨(claim2_key_occupies_one_slot.2.1) abW (BEvent.complete 0) (by decide),
   ((claim2_key_occupies_one_slot.2.2.1) abW (by decide) 5 0 (by decide)).1⟩

/-- Claim C3: once the `completed` counter of a batch with at least one item
reaches the item count, exactly one terminal action has fired — the user
callback when present, else the default async completion — and it stays
fired exactly once under further `completeItem` calls. -/
theorem claim3_terminal_action_fires_once (n : Nat) (cb : Bool) (k : Nat) (hn : 1 ≤ n) :
    ((completeCalls (freshBatch n cb) k).callbackFires
        + (completeCalls (freshBatch n cb) k).defaultFires
      = if n ≤ k then 1 else 0)
  ∧ (cb = true → (completeCalls (freshBatch n cb) k).defaultFires = 0)
  ∧ (cb = false → (completeCalls (freshBatch n cb) k).callbackFires = 0) := by
  obtain ⟨-, -, -, hcf, hdf⟩ := completeCalls_spec n cb k
  refine ⟨?_, ?_, ?_⟩
  · rw [hcf, hdf]
    by_cases hcb : cb = true
    · rw [if_pos hcb, if_pos hcb]
      split_ifs with h1 h2 <;> omega
    · rw [if_neg hcb, if_neg hcb]
      split_ifs with h1 h2 <;> omega
  · intro hcb
    rw [hdf, if_pos hcb]
  · intro hcb
    have hcb' : ¬ cb = true := by simp [hcb]
    rw [hcf, if_neg hcb']

/-- Witness for C3: a two-item batch without callback, driven by three
`completeItem` calls, fires the default action exactly once. -/
theorem claim3_witness :
    ((completeCalls (freshBatch 2 false) 3).callbackFires
        + (completeCalls (freshBatch 2 false) 3).defaultFires
      = if 2 ≤ 3 then 1 else 0)
  ∧ (completeCalls (freshBatch 2 false) 3).callbackFires = 0 :=
  ⟨(claim3_terminal_action_fires_once 2 false 3 (by decide)).1,
   (claim3_terminal_action_fires_once 2 false 3 (by decide)).2.2 rfl⟩

/-- Claim C4: per-item admission follows the decision order of `batchFor`
and `add`: a key assigned to a `Ready` slot targets that slot; a key
assigned to an `Executing` slot goes to the pending queue; an unassigned key
targets the first `Ready` slot in index order; with no `Ready` slot it goes
to the pending queue. -/
theorem claim4_admission_decision_order {K V : Type} [DecidableEq K]
    (ab : AB K V) (item : BItem K V) :
    (∀ i, lookupA ab.assignments item.key = some i →
        (slotAt ab i).state = SState.Ready → addItem ab item = addToBatch ab item i)
  ∧ (∀ i, lookupA ab.assignments item.key = some i →
        (slotAt ab i).state = SState.Executing →
          addItem ab item = { ab with pending := ab.pending ++ [item] })
  ∧ (lookupA ab.assignments item.key = none →
      ∀ j, (slotAt ab j).state = SState.Ready →
        (∀ j' < j, (slotAt ab j').state ≠ SState.Ready) →
          addItem ab item = addToBatch ab item j)
  ∧ (lookupA ab.assignments item.key = none →
      (∀ j, (slotAt ab j).state ≠ SState.Ready) →
        addItem ab item = { ab with pending := ab.pending ++ [item] }) := by
  refine ⟨?_, ?_, ?_, ?_⟩
  · intro i hl hready
    have hb : batchForM ab item.key = some i := by
      unfold batchForM
      rw [hl]
      simp [hready]
    unfold addItem
    rw [hb]
  · intro i hl hexec
    have hnr : ¬ (slotAt ab i).state = SState.Ready := by
      rw [hexec]
      intro hcontra
      exact SState.noConfusion hcontra
    have hb : batchForM ab item.key = none := by
      unfold batchForM
      rw [hl]
      simp [hnr]
    unfold addItem
    rw [hb]
  · intro hl j hjr hprev
    have hfr : firstReadyIdx ab.batches = some j :=
      (firstReadyIdx_iff_L ab.batches j).mpr ⟨hjr, hprev⟩
    have hb : batchForM ab item.key = some j := by
      unfold batchForM
      rw [hl]
      exact hfr
    unfold addItem
    rw [hb]
  · intro hl hnone
    have hfr : firstReadyIdx ab.batches = none :=
      (firstReadyIdx_none_iff_L ab.batches).mpr hnone
    have hb : batchForM ab item.key = none := by
      unfold batchForM
      rw [hl]
      exact hfr
    unfold addItem
    rw [hb]

/-- Witness for C4 at a concrete state: key `5` is held by the executing
slot 0, so its item is enqueued to pending; key `9` is unassigned, so its
item targets the first `Ready` slot, index 1. -/
theorem claim4_witness :
    addItem abW ⟨5, 7⟩ = { abW with pending := abW.pending ++ [⟨5, 7⟩] }
  ∧ addItem abW ⟨9, 1⟩ = addToBatch abW ⟨9, 1⟩ 1 :=
  ⟨(claim4_admission_decision_order abW ⟨5, 7⟩).2.1 0 (by decide) (by decide),
   (claim4_admission_decision_order abW ⟨9, 1⟩).2.2.1 (by decide) 1 (by decide) (by decide)⟩

/-- Counterexample to C5 as stated: the claim says an error returned by
`finalize` is logged, but the `work` loop binds the error to the blank
identifier; at a concrete job returning `(Incomplete, err)` no log entry is
emitted. -/
theorem claim5_counterexample :
    ¬ (∀ (pw : PW) (job : AsyncJobM), job.finErr = true →
        pw.logs < (workAsyncJob pw job).logs) := by
  intro h
  have h2 := h pwW ⟨7, ExecState.Incomplete, true⟩ rfl
  simp [workAsyncJob, pwW] at h2

/-- Claim C5 as amended: for every dequeued job the worker calls `finalize`;
a `Complete` state marks the job's context complete and anything else leaves
it pending; the error is discarded (not logged), and neither the error nor
the state aborts the loop — every job in the queue is processed. -/
theorem claim5_amended_work_loop (pw : PW) (jobs : List AsyncJobM) :
    (workAsyncJobs pw jobs).completedCtxs
        = pw.completedCtxs
            ++ (jobs.filter (fun j => j.finState == ExecState.Complete)).map
                (fun j => j.ctxOffset)
  ∧ (workAsyncJobs pw jobs).logs = pw.logs :=
  ⟨(workAsyncJobs_spec jobs pw).1, (workAsyncJobs_spec jobs pw).2.1⟩

/-- Claim C6: `scheduleTxnAndExecution` forwards exactly the non-nil records
with offset at least `highestOffset` — in order, both into the producer-pool
registrations and onto `eventInput` — while every other slice element only
decrements the revocation waiter, leaving a net waiter increase of one per
forwarded record; no handler runs and no completion fires during
scheduling. -/
theorem claim6_schedule_forwards_exactly_fresh (pw : PW) (records : List (Option RecM)) :
    (scheduleTxnAndExecution pw records).eventInput
        = pw.eventInput ++ freshRecords pw.highestOffset records
  ∧ (scheduleTxnAndExecution pw records).registered
        = pw.registered ++ freshRecords pw.highestOffset records
  ∧ (scheduleTxnAndExecution pw records).revocationWaiter
        = pw.revocationWaiter + (freshRecords pw.highestOffset records).length
  ∧ (scheduleTxnAndExecution pw records).handlerCalls = pw.handlerCalls
  ∧ (scheduleTxnAndExecution pw records).completedCtxs = pw.completedCtxs := by
  unfold scheduleTxnAndExecution
  refine ⟨?_, ?_, ?_, ?_, ?_⟩
  · rw [scheduleFold_eventInput]
  · rw [scheduleFold_registered]
  · rw [scheduleFold_revocationWaiter]
    show pw.revocationWaiter + (records.length : Int) - records.length
          + ((freshRecords pw.highestOffset records).length : Int)
        = pw.revocationWaiter + (freshRecords pw.highestOffset records).length
    omega
  · rw [scheduleFold_handlerCalls]
  · rw [scheduleFold_completedCtxs]

/-- Claim C7: a nil producer handed over on `producerChan` short-circuits the
event — the worker state is returned untouched and the user handler is not
invoked; a non-nil producer leads to exactly one handler invocation. -/
theorem claim7_nil_producer_skips_handler (pw : PW) (ec : ECtxM) :
    (ec.producerYield = false → forwardToEventSource pw ec = pw)
  ∧ (ec.producerYield = true →
      (forwardToEventSource pw ec).handlerCalls = pw.handlerCalls + 1) :=
  ⟨fun h => forwardToEventSource_nil h, fun h => forwardToEventSource_calls h⟩

/-- Witness for C7 at a concrete worker state and contexts. -/
theorem claim7_witness :
    forwardToEventSource pwW ⟨9, false, ExecState.Complete, false⟩ = pwW
  ∧ (forwardToEventSource pwW ⟨9, true, ExecState.Complete, false⟩).handlerCalls
      = pwW.handlerCalls + 1 :=
  ⟨(claim7_nil_producer_skips_handler pwW ⟨9, false, ExecState.Complete, false⟩).1 rfl,
   (claim7_nil_producer_skips_handler pwW ⟨9, true, ExecState.Complete, false⟩).2 rfl⟩

/-- Claim C8: `NewAsyncBatcher` turns a zero batch delay into exactly
`5 * time.Millisecond`, a negative delay into its absolute value, and keeps
positive delays unchanged. -/
theorem claim8_batch_delay_normalization :
    newBatchDelay 0 = 5 * millisecondNs
  ∧ (∀ d : Int, d < 0 → newBatchDelay d = -d)
  ∧ (∀ d : Int, 0 < d → newBatchDelay d = d) := by
  refine ⟨?_, ?_, ?_⟩
  · norm_num [newBatchDelay, sakAbs, millisecondNs]
  · intro d hd
    have h0 : ¬ d = 0 := by omega
    unfold newBatchDelay sakAbs
    rw [if_neg h0, if_pos hd]
  · intro d hd
    have h0 : ¬ d = 0 := by omega
    have h1 : ¬ d < 0 := by omega
    unfold newBatchDelay sakAbs
    rw [if_neg h0, if_neg h1]

/-- Witness for C8 at a negative and a positive delay. -/
theorem claim8_witness :
    newBatchDelay (-7) = -(-7) ∧ newBatchDelay 3 = 3 :=
  ⟨claim8_batch_delay_normalization.2.1 (-7) (by norm_num),
   claim8_batch_delay_normalization.2.2 3 (by norm_num)⟩

/-- Claim C9: `handleEvent` decrements `pending`, advances `highestOffset`
to the context's offset plus one, and increments `processed` — also when the
producer handoff yields nil and the handler is never invoked. -/
theorem claim9_handle_event_counters (pw : PW) (ec : ECtxM) :
    ((handleEvent pw ec).pending = pw.pending - 1
  ∧ (handleEvent pw ec).highestOffset = ec.offset + 1
  ∧ (handleEvent pw ec).processed = pw.processed + 1)
  ∧ (ec.producerYield = false → (handleEvent pw ec).handlerCalls = pw.handlerCalls) := by
  refine ⟨⟨?_, ?_, ?_⟩, ?_⟩
  · show (forwardToEventSource { pw with pending := pw.pending - 1 } ec).pending
        = pw.pending - 1
    rw [forwardToEventSource_pending]
  · rfl
  · show (forwardToEventSource { pw with pending := pw.pending - 1 } ec).processed + 1
        = pw.processed + 1
    rw [forwardToEventSource_processed]
  · intro h
    show (forwardToEventSource { pw with pending := pw.pending - 1 } ec).handlerCalls
        = pw.handlerCalls
    rw [forwardToEventSource_nil h]

/-- Witness for C9 on a nil-producer context: the counters move even though
the handler is skipped. -/
theorem claim9_witness :
    (handleEvent pwW ⟨9, false, ExecState.Complete, false⟩).handlerCalls = pwW.handlerCalls :=
  (claim9_handle_event_counters pwW ⟨9, false, ExecState.Complete, false⟩).2 rfl

/-- Claim C10: submitting a batch with no items performs no admission — the
batcher state is exactly unchanged — and a zero-item batch's terminal
completion action never fires, no matter how many times `completeItem` were
called on it. -/
theorem claim10_empty_batch_no_effect {K V : Type} [DecidableEq K] :
    (∀ ab : AB K V, addBatch ab [] = ab)
  ∧ (∀ (cb : Bool) (k : Nat),
      (completeCalls (freshBatch 0 cb) k).callbackFires = 0
      ∧ (completeCalls (freshBatch 0 cb) k).defaultFires = 0) := by
  constructor
  · intro ab
    rfl
  · intro cb k
    obtain ⟨-, -, -, hcf, hdf⟩ := completeCalls_spec 0 cb k
    have hng : ¬ (1 ≤ 0 ∧ 0 ≤ k) := by omega
    constructor
    · rw [hcf]
      by_cases hcb : cb = true
      · rw [if_pos hcb, if_neg hng]
      · rw [if_neg hcb]
    · rw [hdf]
      by_cases hcb : cb = true
      · rw [if_pos hcb]
      · rw [if_neg hcb, if_neg hng]

end GKES
